import Mathlib

/-!
Verification of the neuro-viewer backend Waveform Data Service.

This file shallowly embeds the Python source of the backend
(`services/waveform_loader.py`, `routes/data.py`, `routes/playback.py`)
into Lean and proves properties of the embedded definitions.

Modelling conventions:
* numpy float values are modelled as rationals (`ℚ`); the properties
  proved here are order/structure properties that do not depend on
  floating-point rounding (NaN inputs are outside the model).
* Python `list`/`ndarray` slicing (including negative indices and the
  clamping behaviour of out-of-range bounds) is modelled by `pyIdx` and
  `pySlice` below.
* Python dicts keyed by file id are modelled as association lists with
  insert-or-overwrite assignment (`assocPut`) and lookup (`assocFind`).
* The float32 byte encoding performed by `ndarray.astype(np.float32).tobytes()`
  is abstracted as a parameter `enc : ℚ → List ℕ`; theorems about the
  range-serving route only assume that every sample encodes to exactly
  4 bytes, which is the only fact about the encoding that the route's
  byte arithmetic uses.
-/

namespace NeuroViewer

/-- Normalisation of a Python slice bound over a list of length `L`:
a negative bound is shifted by `L` and clamped at `0`; a nonnegative
bound is clamped at `L`. -/
def pyIdx (L : ℕ) (i : ℤ) : ℕ :=
  if i < 0 then (i + L).toNat else min i.toNat L

/-- Python slice `xs[a:b]` (step 1), with full Python semantics for
negative and out-of-range bounds. -/
def pySlice {α : Type} (xs : List α) (a b : ℤ) : List α :=
  (xs.take (pyIdx xs.length b)).drop (pyIdx xs.length a)

/-- Association-list lookup, modelling Python `d.get(k)` / `d[k]` / `k in d`. -/
def assocFind {α : Type} : List (String × α) → String → Option α
  | [], _ => none
  | (k', v) :: rest, k => if k' = k then some v else assocFind rest k

/-- Association-list insert-or-overwrite, modelling Python `d[k] = v`. -/
def assocPut {α : Type} : List (String × α) → String → α → List (String × α)
  | [], k, v => [(k, v)]
  | (k', v') :: rest, k, v =>
      if k' = k then (k, v) :: rest else (k', v') :: assocPut rest k v

/-- Metadata computed at ingestion (`load_from_pickle` in
`services/waveform_loader.py`): length, sampling rate (default 30000),
and precomputed extrema. -/
structure Metad where
  length : ℕ
  sampling_rate : ℕ
  minv : ℚ
  maxv : ℚ
deriving DecidableEq

/-- The in-memory store of `WaveformLoader`: the `waveforms` dict and the
`metadata` dict, both keyed by file id. -/
structure WaveformLoader where
  waveforms : List (String × List ℚ)
  metadata : List (String × Metad)
deriving DecidableEq

/-- The result of `pickle.loads` on an upload, restricted to the shapes the
loader distinguishes: a 1-d numpy array, a 2-d numpy array (C-contiguous,
given by its rows), a dict, or anything else. -/
inductive PickleData where
  | array1d (xs : List ℚ)
  | array2d (rows : List (List ℚ))
  | dict
  | other
deriving DecidableEq

/-- The ingestion error: every `ValueError` raised inside `load_from_pickle`
is wrapped into `ValueError("Failed to load pickle file: ...")`, which the
upload route surfaces as a 400 `InvalidInput` response. -/
inductive LoadError where
  | invalidInput
deriving DecidableEq

/-- The numeric array extracted from the unpickled payload, flattened to one
dimension in row-major order when multi-dimensional (`waveform.flatten()`);
`none` when the payload is not a numpy array. -/
def extractArray : PickleData → Option (List ℚ)
  | .array1d xs => some xs
  | .array2d rows => some rows.flatten
  | .dict => none
  | .other => none

/-- Embedding of `WaveformLoader.load_from_pickle`.  Returns the post-state
of the store together with the computed metadata or the ingestion error.
Mirroring the source order, the waveform is written into `waveforms`
BEFORE `np.min`/`np.max` are computed, so a failure of `np.min` (empty
array) leaves the waveform stored while the metadata is not. -/
def load_from_pickle (st : WaveformLoader) (file_id : String)
    (data : PickleData) : WaveformLoader × Except LoadError Metad :=
  match extractArray data with
  | none => (st, .error .invalidInput)
  | some waveform =>
    let st' : WaveformLoader :=
      { st with waveforms := assocPut st.waveforms file_id waveform }
    match waveform.min?, waveform.max? with
    | some mn, some mx =>
      let md : Metad := ⟨waveform.length, 30000, mn, mx⟩
      ({ st' with metadata := assocPut st'.metadata file_id md }, .ok md)
    | _, _ => (st', .error .invalidInput)

/-- Embedding of `WaveformLoader.get_metadata`. -/
def get_metadata (st : WaveformLoader) (file_id : String) : Option Metad :=
  assocFind st.metadata file_id

/-- Embedding of `WaveformLoader.get_chunk`: `none` when the id is unknown,
otherwise the Python slice `waveform[start : min(start + duration, len)]`. -/
def get_chunk (st : WaveformLoader) (file_id : String)
    (start duration : ℤ) : Option (List ℚ) :=
  match assocFind st.waveforms file_id with
  | none => none
  | some waveform =>
    let e : ℤ := min (start + duration) (waveform.length : ℤ)
    some (pySlice waveform start e)

/-- The crossing indices of `np.where(chunk > threshold)[0]`: the indices
`j` of the chunk with `chunk[j] > threshold`, in increasing order. -/
def crossings (threshold : ℚ) (chunk : List ℚ) : List ℕ :=
  (List.range chunk.length).filter (fun j => decide (threshold < chunk.getD j 0))

/-- The inner debouncing loop of `get_spikes`: keep `c` when
`c - prev > 1`, always advancing `prev` to the element just scanned. -/
def debounceGo (prev : ℕ) : List ℕ → List ℕ
  | [] => []
  | c :: cs => if 1 < c - prev then c :: debounceGo c cs else debounceGo c cs

/-- Debouncing of the crossing list, as in `get_spikes`: the first crossing
is always kept, and a later crossing is kept exactly when it is more than
one past the crossing scanned just before it. -/
def debounce : List ℕ → List ℕ
  | [] => []
  | c :: cs => c :: debounceGo c cs

/-- Embedding of `WaveformLoader.get_spikes`: an unknown id gives `[]`;
otherwise the crossings of `waveform[start:end]` (with `end` defaulting to
the length) are debounced and offset by `start`. -/
def get_spikes (st : WaveformLoader) (file_id : String) (threshold : ℚ)
    (start : ℤ) (endOpt : Option ℤ) : List ℤ :=
  match assocFind st.waveforms file_id with
  | none => []
  | some waveform =>
    let e : ℤ := endOpt.getD (waveform.length : ℤ)
    let chunk := pySlice waveform start e
    (debounce (crossings threshold chunk)).map
      (fun s : ℕ => start + (s : ℤ))

/-- Embedding of Python `str.replace("bytes=", "")`: every occurrence of
the pattern `"bytes="` is deleted, scanning left to right and resuming
after each deleted occurrence. -/
def stripBytesEq : List Char → List Char
  | 'b' :: 'y' :: 't' :: 'e' :: 's' :: '=' :: rest => stripBytesEq rest
  | c :: rest => c :: stripBytesEq rest
  | [] => []

/-- Embedding of Python `str.split("-")`: split at every `'-'`, keeping
empty pieces (so `"".split("-") == [""]`). -/
def splitDash : List Char → List (List Char)
  | [] => [[]]
  | c :: rest =>
    if c = '-' then [] :: splitDash rest
    else
      match splitDash rest with
      | [] => [[c]]
      | p :: ps => (c :: p) :: ps

/-- Accumulating decimal parser over a digit string; `none` as soon as a
non-digit character appears. -/
def digitsAcc (acc : ℕ) : List Char → Option ℕ
  | [] => some acc
  | c :: rest =>
    if c.isDigit then digitsAcc (acc * 10 + (c.toNat - 48)) rest else none

/-- Parse of a nonempty all-digit string as a natural number; `none` on the
empty string or on any non-digit character. -/
def digitsToNat : List Char → Option ℕ
  | [] => none
  | l => digitsAcc 0 l

/-- Embedding of Python `int(s)` on the split pieces: surrounding spaces
are stripped, then an optional sign precedes a nonempty digit string. -/
def parsePyInt (l : List Char) : Option ℤ :=
  let t := ((l.dropWhile (· = ' ')).reverse.dropWhile (· = ' ')).reverse
  match t with
  | [] => none
  | c :: rest =>
    if c = '+' then (digitsToNat rest).map (fun n => (n : ℤ))
    else if c = '-' then (digitsToNat rest).map (fun n => -(n : ℤ))
    else (digitsToNat t).map (fun n => (n : ℤ))

/-- One piece of the Range header: Python's
`int(start_str) if start_str else default` (empty string is falsy). -/
def parsePiece (default : ℤ) (s : List Char) : Option ℤ :=
  if s = [] then some default else parsePyInt s

/-- The Range-header parse performed by `get_binary_data`: strip
`"bytes="`, split on `'-'`, require exactly two pieces, and parse each
piece as an integer with the route's defaults (`0` and `total_bytes - 1`).
`none` models the `ValueError`s that the route maps to a 400 response. -/
def parseRange (totalBytes : ℕ) (hdr : List Char) : Option (ℤ × ℤ) :=
  match splitDash (stripBytesEq hdr) with
  | [s, e] =>
    match parsePiece 0 s, parsePiece ((totalBytes : ℤ) - 1) e with
    | some a, some b => some (a, b)
    | _, _ => none
  | _ => none

/-- The response of the `/data/{file_id}` route: status 404, 200 (full
content), 206 (range), 400 (malformed range), 416 (unsatisfiable range),
or the 500 produced by the uncaught `KeyError` when the metadata dict is
missing the id. -/
inductive DataResponse where
  | notFound
  | okFull (payload : List ℕ) (sampleRate totalSamples : ℕ)
  | okRange (payload : List ℕ) (contentRange : String)
      (sampleRate totalSamples : ℕ)
  | badRange
  | notSatisfiable
  | serverError
deriving DecidableEq

/-- The HTTP status code of each response shape. -/
def statusCode : DataResponse → ℕ
  | .notFound => 404
  | .okFull _ _ _ => 200
  | .okRange _ _ _ _ => 206
  | .badRange => 400
  | .notSatisfiable => 416
  | .serverError => 500

/-- Embedding of `get_binary_data` in `routes/data.py`.  `enc` abstracts
the float32 encoding of one sample (`astype(np.float32).tobytes()`); the
route itself only manipulates the concatenated byte list.  A present but
empty Range header is falsy in Python and serves the full content. -/
def get_binary_data (enc : ℚ → List ℕ) (st : WaveformLoader)
    (file_id : String) (rangeHeader : Option (List Char)) : DataResponse :=
  match assocFind st.waveforms file_id with
  | none => .notFound
  | some waveform =>
    match assocFind st.metadata file_id with
    | none => .serverError
    | some md =>
      let fullData := (waveform.map enc).flatten
      let totalBytes := fullData.length
      match rangeHeader with
      | none => .okFull fullData md.sampling_rate md.length
      | some hdr =>
        if hdr = [] then .okFull fullData md.sampling_rate md.length
        else
          match parseRange totalBytes hdr with
          | none => .badRange
          | some (start, e) =>
            if start < 0 ∨ (totalBytes : ℤ) ≤ start then .notSatisfiable
            else
              let e2 := min e ((totalBytes : ℤ) - 1)
              .okRange (pySlice fullData start (e2 + 1))
                ("bytes " ++ toString start ++ "-" ++ toString e2 ++ "/" ++
                  toString totalBytes)
                md.sampling_rate md.length

/-- The mutable per-connection state of the playback loop in
`routes/playback.py`: the `playing` flag and the sample cursor
`position` (an arbitrary integer: `seek` performs no bounds check). -/
structure Session where
  playing : Bool
  position : ℤ
deriving DecidableEq

/-- The parse outcome of one inbound websocket text message.
`invalid` models a message on which `json.loads` raises;
`nonObject` models valid JSON that is not an object, on which
`data.get("command")` raises `AttributeError`;
`obj cmd pos` models a JSON object whose `"command"` value is the given
string (or absent / not a string) and whose `"position"` value is the
given integer (or absent).  Messages whose `"position"` value is present
but not an integer are outside this model. -/
inductive ClientMsg where
  | invalid
  | nonObject
  | obj (command : Option String) (position : Option ℤ)
deriving DecidableEq

/-- One chunk message sent to the client: `{type: "chunk", samples,
position, timestamp}` with `timestamp = position / sampling_rate`. -/
structure Emission where
  samples : List ℚ
  position : ℤ
  timestamp : ℚ
deriving DecidableEq

/-- The command-dispatch block of the playback loop.  `none` models an
exception escaping the message handler (invalid JSON or a non-object
payload), which the outer handler turns into closing the connection;
otherwise the updated session state. -/
def applyCommand (s : Session) : ClientMsg → Option Session
  | .invalid => none
  | .nonObject => none
  | .obj cmd pos =>
    if cmd = some "play" then some ⟨true, pos.getD s.position⟩
    else if cmd = some "pause" then some ⟨false, s.position⟩
    else if cmd = some "seek" then some ⟨s.playing, pos.getD 0⟩
    else some s

/-- The streaming block of one loop iteration: while `playing` and
`position < total_length`, fetch `get_chunk(file_id, position, 256)`,
emit it tagged with the position and `position / sampling_rate`, and
advance the cursor by the fixed chunk size 256. -/
def streamStep (st : WaveformLoader) (file_id : String) (totalLength : ℤ)
    (samplingRate : ℚ) (s : Session) : Session × Option Emission :=
  if s.playing = true ∧ s.position < totalLength then
    match get_chunk st file_id s.position 256 with
    | some ch =>
        (⟨s.playing, s.position + 256⟩,
         some ⟨ch, s.position, s.position / samplingRate⟩)
    | none => (s, none)
  else (s, none)

/-- The outcome of one loop iteration: either the loop continues with a
new state (having possibly emitted one chunk), or an uncaught exception
closed the connection. -/
inductive IterResult where
  | next (s : Session) (emitted : Option Emission)
  | closed
deriving DecidableEq

/-- One full iteration of the playback loop: poll for a message
(`incoming = none` models the `asyncio.TimeoutError` path), dispatch it,
then run the streaming block.  An exception in the dispatch skips the
streaming block and closes the connection. -/
def loopIteration (st : WaveformLoader) (file_id : String)
    (totalLength : ℤ) (samplingRate : ℚ) (s : Session)
    (incoming : Option ClientMsg) : IterResult :=
  match incoming with
  | none =>
      let (s', em) := streamStep st file_id totalLength samplingRate s
      .next s' em
  | some m =>
    match applyCommand s m with
    | none => .closed
    | some s' =>
        let (s'', em) := streamStep st file_id totalLength samplingRate s'
        .next s'' em

/-- `n` consecutive loop iterations with no inbound message, collecting
the emitted chunks in order. -/
def runQuiet (st : WaveformLoader) (file_id : String) (totalLength : ℤ)
    (samplingRate : ℚ) (s : Session) : ℕ → Session × List Emission
  | 0 => (s, [])
  | n + 1 =>
    let (s', em) := streamStep st file_id totalLength samplingRate s
    let (s'', ems) := runQuiet st file_id totalLength samplingRate s' n
    (s'', match em with | some e => e :: ems | none => ems)

/-- A concrete stored recording for the spike merge-rule example: the
threshold 0 is exceeded exactly at indices 10, 11, 12, 20 and 21. -/
def spikeExample : WaveformLoader :=
  ⟨[("g", [-1, -1, -1, -1, -1, -1, -1, -1, -1, -1, 1, 1, 1,
           -1, -1, -1, -1, -1, -1, -1, 1, 1])], []⟩

theorem pyIdx_le (L : ℕ) (i : ℤ) : pyIdx L i ≤ L := by
  unfold pyIdx
  split
  · omega
  · omega

theorem pyIdx_of_nonneg (L : ℕ) (i : ℤ) (h : 0 ≤ i) :
    pyIdx L i = min i.toNat L := by
  unfold pyIdx
  rw [if_neg (by omega)]

theorem length_pySlice {α : Type} (xs : List α) (a b : ℤ) :
    (pySlice xs a b).length = pyIdx xs.length b - pyIdx xs.length a := by
  have hb := pyIdx_le xs.length b
  simp [pySlice, List.length_drop, List.length_take]
  omega

theorem getElem_pySlice {α : Type} (xs : List α) (a b : ℤ) (j : ℕ)
    (hj : j < (pySlice xs a b).length) :
    ∃ hab : pyIdx xs.length a + j < xs.length,
      (pySlice xs a b).get ⟨j, hj⟩ = xs.get ⟨pyIdx xs.length a + j, hab⟩ := by
  have hb := pyIdx_le xs.length b
  have hl := length_pySlice xs a b
  refine ⟨by omega, ?_⟩
  simp only [pySlice, List.get_eq_getElem]
  rw [List.getElem_drop, List.getElem_take]

theorem pySlice_getD (xs : List ℚ) (a b : ℤ) (j : ℕ)
    (hj : j < (pySlice xs a b).length) :
    pyIdx xs.length a + j < xs.length ∧
      (pySlice xs a b).getD j 0 = xs.getD (pyIdx xs.length a + j) 0 := by
  obtain ⟨hab, hget⟩ := getElem_pySlice xs a b j hj
  refine ⟨hab, ?_⟩
  rw [List.getD_eq_getElem _ _ hj, List.getD_eq_getElem _ _ hab]
  simpa using hget

theorem pySlice_of_nonneg {α : Type} (xs : List α) (a b : ℤ)
    (ha : 0 ≤ a) (hb : 0 ≤ b) :
    pySlice xs a b = (xs.drop a.toNat).take (b.toNat - a.toNat) := by
  unfold pySlice pyIdx
  rw [if_neg (by omega), if_neg (by omega)]
  have htake : xs.take (min b.toNat xs.length) = xs.take b.toNat := by
    rw [List.take_eq_take]; omega
  rw [htake, List.drop_take]
  rcases le_or_lt a.toNat xs.length with h | h
  · rw [min_eq_left h]
  · rw [min_eq_right (le_of_lt h)]
    rw [List.drop_eq_nil_of_le (le_refl _), List.take_nil,
      List.drop_eq_nil_of_le (by omega), List.take_nil]

/-- C1: for a stored recording and `0 ≤ start < length`, `0 ≤ duration`,
`get_chunk` returns exactly the slice `[start, min(start+duration, length))`,
whose length is `min(duration, length - start)`; and for every `start` and
every `duration ≥ 0` the returned chunk is never longer than `duration`. -/
theorem C1_chunk_slice_spec (st : WaveformLoader) (file_id : String)
    (w : List ℚ) (start duration : ℤ)
    (hw : assocFind st.waveforms file_id = some w)
    (hs0 : 0 ≤ start) (hsL : start < (w.length : ℤ)) (hd : 0 ≤ duration) :
    get_chunk st file_id start duration =
      some ((w.drop start.toNat).take duration.toNat) ∧
    (∀ l, get_chunk st file_id start duration = some l →
      (l.length : ℤ) = min duration ((w.length : ℤ) - start)) ∧
    (∀ (start' duration' : ℤ) (l : List ℚ), 0 ≤ duration' →
      get_chunk st file_id start' duration' = some l →
      (l.length : ℤ) ≤ duration') := by
  have hmain : get_chunk st file_id start duration =
      some ((w.drop start.toNat).take duration.toNat) := by
    simp only [get_chunk, hw]
    have hb : (0 : ℤ) ≤ min (start + duration) (w.length : ℤ) := by omega
    rw [pySlice_of_nonneg w start _ hs0 hb]
    have : (w.drop start.toNat).take
        ((min (start + duration) (w.length : ℤ)).toNat - start.toNat) =
        (w.drop start.toNat).take duration.toNat := by
      rw [List.take_eq_take, List.length_drop]
      omega
    rw [this]
  refine ⟨hmain, ?_, ?_⟩
  · intro l hl
    rw [hmain] at hl
    have : l = (w.drop start.toNat).take duration.toNat := by
      exact Option.some.inj hl.symm
    subst this
    rw [List.length_take, List.length_drop]
    omega
  · intro start' duration' l hd' hl
    simp only [get_chunk, hw] at hl
    have : l = pySlice w start' (min (start' + duration') (w.length : ℤ)) :=
      Option.some.inj hl.symm
    subst this
    rw [length_pySlice]
    have h1 := pyIdx_le w.length (min (start' + duration') (w.length : ℤ))
    have h2 := pyIdx_le w.length start'
    rcases le_or_lt (start' + duration') (w.length : ℤ) with h | h
    · rw [min_eq_left h]
      unfold pyIdx
      split <;> split <;> omega
    · rw [min_eq_right (le_of_lt h)]
      unfold pyIdx
      split <;> split <;> omega

/-- Witness for C1 at a concrete recording of length 4, start 1,
duration 2. -/
theorem C1_chunk_slice_spec_witness :
    assocFind (WaveformLoader.mk [("f", [5, 6, 7, 8])] []).waveforms "f" =
        some [5, 6, 7, 8] ∧
    get_chunk (WaveformLoader.mk [("f", [5, 6, 7, 8])] []) "f" 1 2 =
      some ((([5, 6, 7, 8] : List ℚ).drop (1 : ℤ).toNat).take (2 : ℤ).toNat) := by
  refine ⟨by decide, ?_⟩
  exact (C1_chunk_slice_spec (WaveformLoader.mk [("f", [5, 6, 7, 8])] []) "f"
    [5, 6, 7, 8] 1 2 (by decide) (by decide) (by decide) (by decide)).1

/-- C3 counterexample: the claim says `start < 0` yields an empty
sequence, but on a stored recording `[5, 6, 7, 8]` the call
`get_chunk(id, -2, 1)` follows Python negative-index slicing and returns
the one-sample chunk `[7]`. -/
theorem C3_counterexample :
    get_chunk (WaveformLoader.mk [("f", [5, 6, 7, 8])] []) "f" (-2) 1 =
        some [7] ∧
    get_chunk (WaveformLoader.mk [("f", [5, 6, 7, 8])] []) "f" (-2) 1 ≠
        some [] := by
  exact ⟨by decide, by decide⟩

/-- C3 amended: for `start ≥ 0` and `duration ≥ 0`, `get_chunk` on a stored
recording returns an empty sequence (not an error) whenever
`start ≥ length` or `duration = 0`; for negative `start` or negative
`duration` Python's negative-index slice semantics apply instead and the
result can be non-empty. -/
theorem C3_chunk_empty_amended (st : WaveformLoader) (file_id : String)
    (w : List ℚ) (start duration : ℤ)
    (hw : assocFind st.waveforms file_id = some w)
    (hs0 : 0 ≤ start) (hd : 0 ≤ duration)
    (h : (w.length : ℤ) ≤ start ∨ duration = 0) :
    get_chunk st file_id start duration = some [] := by
  simp only [get_chunk, hw]
  have hb : (0 : ℤ) ≤ min (start + duration) (w.length : ℤ) := by omega
  rw [pySlice_of_nonneg w start _ hs0 hb]
  rcases h with h | h
  · rw [List.drop_eq_nil_of_le (by omega), List.take_nil]
  · subst h
    have : (min (start + 0) (w.length : ℤ)).toNat - start.toNat = 0 := by
      omega
    rw [this, List.take_zero]

/-- Witness for the amended C3 at `start = length = 4` and at
`duration = 0`. -/
theorem C3_chunk_empty_amended_witness :
    assocFind (WaveformLoader.mk [("f", [5, 6, 7, 8])] []).waveforms "f" =
        some [5, 6, 7, 8] ∧
    get_chunk (WaveformLoader.mk [("f", [5, 6, 7, 8])] []) "f" 4 9 =
        some [] ∧
    get_chunk (WaveformLoader.mk [("f", [5, 6, 7, 8])] []) "f" 2 0 =
        some [] := by
  refine ⟨by decide, ?_, ?_⟩
  · exact C3_chunk_empty_amended (WaveformLoader.mk [("f", [5, 6, 7, 8])] [])
      "f" [5, 6, 7, 8] 4 9 (by decide) (by decide) (by decide)
      (Or.inl (by decide))
  · exact C3_chunk_empty_amended (WaveformLoader.mk [("f", [5, 6, 7, 8])] [])
      "f" [5, 6, 7, 8] 2 0 (by decide) (by decide) (by decide)
      (Or.inr rfl)

theorem debounceGo_sublist (prev : ℕ) (cs : List ℕ) :
    (debounceGo prev cs).Sublist cs := by
  induction cs generalizing prev with
  | nil => simp [debounceGo]
  | cons c cs ih =>
    simp only [debounceGo]
    split
    · exact (ih c).cons₂ c
    · exact (ih c).cons c

theorem debounce_sublist (cs : List ℕ) : (debounce cs).Sublist cs := by
  cases cs with
  | nil => simp [debounce]
  | cons c cs => exact (debounceGo_sublist c cs).cons₂ c

theorem debounceGo_sound (prev : ℕ) (cs : List ℕ)
    (h : (prev :: cs).Pairwise (· < ·)) :
    ∀ c ∈ debounceGo prev cs, c ∈ cs ∧ (c - 1) ∉ (prev :: cs) := by
  induction cs generalizing prev with
  | nil => simp [debounceGo]
  | cons c0 cs ih =>
    rw [List.pairwise_cons] at h
    obtain ⟨hprev, hpair⟩ := h
    have hc0 : prev < c0 := hprev c0 (List.mem_cons_self _ _)
    have hcs : ∀ a ∈ cs, c0 < a := (List.pairwise_cons.1 hpair).1
    intro c hc
    simp only [debounceGo] at hc
    split at hc
    case isTrue hgap =>
      rcases List.mem_cons.1 hc with rfl | hc
      · refine ⟨List.mem_cons_self _ _, ?_⟩
        intro hmem
        rcases List.mem_cons.1 hmem with h1 | hmem
        · omega
        rcases List.mem_cons.1 hmem with h1 | hmem
        · omega
        · have := hcs _ hmem; omega
      · obtain ⟨hmem, hnot⟩ := ih c0 hpair c hc
        refine ⟨List.mem_cons_of_mem _ hmem, ?_⟩
        intro hmem2
        rcases List.mem_cons.1 hmem2 with h1 | hmem2
        · have := hcs c hmem; omega
        · exact hnot hmem2
    case isFalse hgap =>
      obtain ⟨hmem, hnot⟩ := ih c0 hpair c hc
      refine ⟨List.mem_cons_of_mem _ hmem, ?_⟩
      intro hmem2
      rcases List.mem_cons.1 hmem2 with h1 | hmem2
      · have := hcs c hmem; omega
      · exact hnot hmem2

theorem debounce_sound (cs : List ℕ) (h : cs.Pairwise (· < ·)) :
    ∀ c ∈ debounce cs, c ∈ cs ∧ (0 < c → (c - 1) ∉ cs) := by
  cases cs with
  | nil => simp [debounce]
  | cons c0 cs =>
    intro c hc
    simp only [debounce] at hc
    have hcs : ∀ a ∈ cs, c0 < a := (List.pairwise_cons.1 h).1
    rcases List.mem_cons.1 hc with rfl | hc
    · refine ⟨List.mem_cons_self _ _, ?_⟩
      intro hpos hmem
      rcases List.mem_cons.1 hmem with h1 | hmem
      · omega
      · have := hcs _ hmem; omega
    · obtain ⟨hmem, hnot⟩ := debounceGo_sound c0 cs h c hc
      exact ⟨List.mem_cons_of_mem _ hmem, fun _ => hnot⟩

theorem debounceGo_complete (prev : ℕ) (cs : List ℕ)
    (h : (prev :: cs).Pairwise (· < ·)) :
    ∀ c ∈ cs, (c - 1) ∉ (prev :: cs) → c ∈ debounceGo prev cs := by
  induction cs generalizing prev with
  | nil => simp
  | cons c0 cs ih =>
    rw [List.pairwise_cons] at h
    obtain ⟨hprev, hpair⟩ := h
    have hc0 : prev < c0 := hprev c0 (List.mem_cons_self _ _)
    intro c hc hnot
    simp only [debounceGo]
    rcases List.mem_cons.1 hc with rfl | hc
    · have hne : c - 1 ≠ prev := by
        intro h1
        exact hnot (h1 ▸ List.mem_cons_self _ _)
      rw [if_pos (by omega)]
      exact List.mem_cons_self _ _
    · have hn : c - 1 ∉ c0 :: cs := fun hm =>
        hnot (List.mem_cons_of_mem _ hm)
      have hin := ih c0 hpair c hc hn
      split
      · exact List.mem_cons_of_mem _ hin
      · exact hin

theorem debounce_complete (cs : List ℕ) (h : cs.Pairwise (· < ·)) :
    ∀ c ∈ cs, (0 < c → (c - 1) ∉ cs) → c ∈ debounce cs := by
  cases cs with
  | nil => simp
  | cons c0 cs =>
    intro c hc hnot
    simp only [debounce]
    rcases List.mem_cons.1 hc with rfl | hc
    · exact List.mem_cons_self _ _
    · have hcs : ∀ a ∈ cs, c0 < a := (List.pairwise_cons.1 h).1
      have h0 : 0 < c := lt_of_le_of_lt (Nat.zero_le c0) (hcs c hc)
      exact List.mem_cons_of_mem _
        (debounceGo_complete c0 cs h c hc (hnot h0))

theorem mem_crossings (threshold : ℚ) (chunk : List ℚ) (j : ℕ) :
    j ∈ crossings threshold chunk ↔
      j < chunk.length ∧ threshold < chunk.getD j 0 := by
  simp [crossings, List.mem_filter, List.mem_range]

theorem crossings_pairwise (threshold : ℚ) (chunk : List ℚ) :
    (crossings threshold chunk).Pairwise (· < ·) :=
  List.Pairwise.filter _ (List.pairwise_lt_range _)

/-- C2: for a stored recording and `start ≥ 0`, the spike indices are
strictly increasing absolute indices; each reported index crosses the
threshold strictly; each reported index is the onset of its run (it is
the start of the scanned range, or its predecessor does not cross);
conversely every in-range crossing whose predecessor in the scanned chunk
does not cross is reported; and on the concrete recording whose crossings
are exactly {10, 11, 12, 20, 21} the result is [10, 20]. -/
theorem C2_spikes_spec (st : WaveformLoader) (file_id : String)
    (w : List ℚ) (threshold : ℚ) (start : ℤ) (endOpt : Option ℤ)
    (hw : assocFind st.waveforms file_id = some w)
    (hs0 : 0 ≤ start) :
    (get_spikes st file_id threshold start endOpt).Pairwise (· < ·) ∧
    (∀ i ∈ get_spikes st file_id threshold start endOpt,
      start ≤ i ∧ i < (w.length : ℤ) ∧ threshold < w.getD i.toNat 0) ∧
    (∀ i ∈ get_spikes st file_id threshold start endOpt,
      i = start ∨ ¬ threshold < w.getD (i - 1).toNat 0) ∧
    (∀ j : ℕ,
      j < (pySlice w start (endOpt.getD (w.length : ℤ))).length →
      threshold <
        (pySlice w start (endOpt.getD (w.length : ℤ))).getD j 0 →
      (j = 0 ∨ ¬ threshold <
        (pySlice w start (endOpt.getD (w.length : ℤ))).getD (j - 1) 0) →
      start + (j : ℤ) ∈ get_spikes st file_id threshold start endOpt) ∧
    get_spikes spikeExample "g" 0 0 none = [10, 20] := by
  set e : ℤ := endOpt.getD (w.length : ℤ) with he
  set chunk := pySlice w start e with hchunk
  set cs := crossings threshold chunk with hcsdef
  have hresult : get_spikes st file_id threshold start endOpt =
      (debounce cs).map (fun s : ℕ => start + (s : ℤ)) := by
    simp only [get_spikes, hw]
  have hcp : cs.Pairwise (· < ·) := crossings_pairwise threshold chunk
  have hdp : (debounce cs).Pairwise (· < ·) :=
    List.Pairwise.sublist (debounce_sublist cs) hcp
  have habs : ∀ c : ℕ, c < chunk.length →
      pyIdx w.length start = start.toNat ∧
      start.toNat + c < w.length ∧
      chunk.getD c 0 = w.getD (start.toNat + c) 0 := by
    intro c hc
    obtain ⟨hlt, hget⟩ := pySlice_getD w start e c (hchunk ▸ hc)
    have hpy : pyIdx w.length start = min start.toNat w.length :=
      pyIdx_of_nonneg w.length start hs0
    have hstart : pyIdx w.length start = start.toNat := by omega
    rw [hstart] at hlt hget
    exact ⟨hstart, hlt, hchunk ▸ hget⟩
  refine ⟨?_, ?_, ?_, ?_, by decide⟩
  · rw [hresult, List.pairwise_map]
    refine hdp.imp ?_
    intro a b hab
    omega
  · intro i hi
    rw [hresult, List.mem_map] at hi
    obtain ⟨c, hcdeb, rfl⟩ := hi
    obtain ⟨hcmem, _⟩ := debounce_sound cs hcp c hcdeb
    obtain ⟨hclen, hcross⟩ := (mem_crossings threshold chunk c).1 hcmem
    obtain ⟨_, hlt, hget⟩ := habs c hclen
    have htn : (start + (c : ℤ)).toNat = start.toNat + c := by omega
    refine ⟨by omega, by omega, ?_⟩
    rw [htn, ← hget]
    exact hcross
  · intro i hi
    rw [hresult, List.mem_map] at hi
    obtain ⟨c, hcdeb, rfl⟩ := hi
    obtain ⟨hcmem, honset⟩ := debounce_sound cs hcp c hcdeb
    obtain ⟨hclen, _⟩ := (mem_crossings threshold chunk c).1 hcmem
    rcases Nat.eq_zero_or_pos c with rfl | hcpos
    · left; omega
    · right
      have hnot := honset hcpos
      have hlen1 : c - 1 < chunk.length := by omega
      have hncross : ¬ threshold < chunk.getD (c - 1) 0 := by
        intro hcon
        exact hnot ((mem_crossings threshold chunk (c - 1)).2 ⟨hlen1, hcon⟩)
      obtain ⟨_, _, hget⟩ := habs (c - 1) hlen1
      have htn : (start + (c : ℤ) - 1).toNat = start.toNat + (c - 1) := by
        omega
      rw [htn, ← hget]
      exact hncross
  · intro j hjlen hjcross hjprev
    rw [hresult, List.mem_map]
    refine ⟨j, ?_, rfl⟩
    have hjmem : j ∈ cs :=
      (mem_crossings threshold chunk j).2 ⟨hjlen, hjcross⟩
    refine debounce_complete cs hcp j hjmem ?_
    intro hj0 hmem
    obtain ⟨_, hcross1⟩ := (mem_crossings threshold chunk (j - 1)).1 hmem
    rcases hjprev with h1 | h1
    · omega
    · exact h1 hcross1

/-- Witness for C2 at the concrete merge-rule recording with threshold 0
and the full range. -/
theorem C2_spikes_spec_witness :
    assocFind spikeExample.waveforms "g" =
        some [-1, -1, -1, -1, -1, -1, -1, -1, -1, -1, 1, 1, 1,
              -1, -1, -1, -1, -1, -1, -1, 1, 1] ∧
    (get_spikes spikeExample "g" 0 0 none).Pairwise (· < ·) := by
  refine ⟨by decide, ?_⟩
  exact (C2_spikes_spec spikeExample "g"
    [-1, -1, -1, -1, -1, -1, -1, -1, -1, -1, 1, 1, 1,
     -1, -1, -1, -1, -1, -1, -1, 1, 1] 0 0 none (by decide) (by decide)).1

theorem rat_min?_spec {l : List ℚ} {a : ℚ} (h : l.min? = some a) :
    a ∈ l ∧ ∀ b ∈ l, a ≤ b := by
  have : Std.Antisymm (fun x y : ℚ => x ≤ y) :=
    ⟨fun h1 h2 => le_antisymm h1 h2⟩
  rw [List.min?_eq_some_iff (le_refl) (fun a b => min_choice a b)
    (fun a b c => le_min_iff)] at h
  exact h

theorem rat_max?_spec {l : List ℚ} {a : ℚ} (h : l.max? = some a) :
    a ∈ l ∧ ∀ b ∈ l, b ≤ a := by
  have : Std.Antisymm (fun x y : ℚ => x ≤ y) :=
    ⟨fun h1 h2 => le_antisymm h1 h2⟩
  rw [List.max?_eq_some_iff (le_refl) (fun a b => max_choice a b)
    (fun a b c => max_le_iff)] at h
  exact h

theorem rat_min?_isSome {l : List ℚ} (h : l ≠ []) : ∃ a, l.min? = some a := by
  cases l with
  | nil => simp at h
  | cons x xs => exact ⟨_, List.min?_cons⟩

theorem rat_max?_isSome {l : List ℚ} (h : l ≠ []) : ∃ a, l.max? = some a := by
  cases l with
  | nil => simp at h
  | cons x xs => exact ⟨_, List.max?_cons⟩

/-- C7: a successful put of a nonempty numeric array stores the flattened
row-major samples under the id, records `length` as the number of stored
samples, sampling rate 30000, and extrema bounding every stored sample;
and a payload that is not a numeric array fails with `InvalidInput`
leaving the store untouched. -/
theorem C7_put_spec (st : WaveformLoader) (file_id : String)
    (data : PickleData) (w : List ℚ)
    (hex : extractArray data = some w) (hne : w ≠ []) :
    (∃ mn mx : ℚ,
      load_from_pickle st file_id data =
        (⟨assocPut st.waveforms file_id w,
          assocPut st.metadata file_id ⟨w.length, 30000, mn, mx⟩⟩,
         .ok ⟨w.length, 30000, mn, mx⟩) ∧
      (∀ x ∈ w, mn ≤ x ∧ x ≤ mx) ∧
      (∀ rows, data = .array2d rows → w = rows.flatten) ∧
      (∀ xs, data = .array1d xs → w = xs)) ∧
    (∀ (st' : WaveformLoader) (fid' : String) (d' : PickleData),
      extractArray d' = none →
      load_from_pickle st' fid' d' = (st', .error .invalidInput)) := by
  constructor
  · obtain ⟨mn, hmn⟩ := rat_min?_isSome hne
    obtain ⟨mx, hmx⟩ := rat_max?_isSome hne
    refine ⟨mn, mx, ?_, ?_, ?_, ?_⟩
    · simp only [load_from_pickle, hex, hmn, hmx]
    · intro x hx
      exact ⟨(rat_min?_spec hmn).2 x hx, (rat_max?_spec hmx).2 x hx⟩
    · intro rows hrows
      subst hrows
      simp only [extractArray, Option.some.injEq] at hex
      exact hex.symm
    · intro xs hxs
      subst hxs
      simp only [extractArray, Option.some.injEq] at hex
      exact hex.symm
  · intro st' fid' d' hnone
    simp only [load_from_pickle, hnone]

/-- Witness for C7 at the 2-d payload `[[1, 2], [3]]` (flattened to
`[1, 2, 3]`) and at the non-array payload `dict`. -/
theorem C7_put_spec_witness :
    extractArray (.array2d [[1, 2], [3]]) = some [1, 2, 3] ∧
    ([1, 2, 3] : List ℚ) ≠ [] ∧
    (∃ mn mx : ℚ,
      load_from_pickle ⟨[], []⟩ "f" (.array2d [[1, 2], [3]]) =
        (⟨assocPut [] "f" [1, 2, 3],
          assocPut [] "f" ⟨3, 30000, mn, mx⟩⟩,
         .ok ⟨3, 30000, mn, mx⟩) ∧
      ∀ x ∈ ([1, 2, 3] : List ℚ), mn ≤ x ∧ x ≤ mx) := by
  refine ⟨by decide, by decide, ?_⟩
  obtain ⟨⟨mn, mx, h1, h2, _, _⟩, _⟩ :=
    C7_put_spec ⟨[], []⟩ "f" (.array2d [[1, 2], [3]]) [1, 2, 3]
      (by decide) (by decide)
  exact ⟨mn, mx, h1, h2⟩

/-- C9 counterexample: ingesting the well-formed empty array does raise
`InvalidInput`, but it does NOT leave the store unchanged: the
zero-length waveform is written into the `waveforms` dict before the
failing `np.min` call. -/
theorem C9_counterexample :
    (load_from_pickle ⟨[], []⟩ "f" (.array1d [])).2 =
        .error .invalidInput ∧
    (load_from_pickle ⟨[], []⟩ "f" (.array1d [])).1 ≠
        WaveformLoader.mk [] [] ∧
    assocFind (load_from_pickle ⟨[], []⟩ "f" (.array1d [])).1.waveforms
        "f" = some [] := by
  refine ⟨rfl, ?_, rfl⟩
  intro h
  have : assocFind (WaveformLoader.mk [] []).waveforms "f" = some [] := by
    rw [← h]
    rfl
  simp [assocFind] at this

/-- C9 amended: ingesting a zero-sample numeric array fails with
`InvalidInput` (the extrema computation fails and is wrapped into the
ingestion failure), but the samples map is left holding the zero-length
array under the id; only the metadata map is unchanged. -/
theorem C9_empty_ingest_amended (st : WaveformLoader) (file_id : String) :
    load_from_pickle st file_id (.array1d []) =
      ({ st with waveforms := assocPut st.waveforms file_id [] },
       .error .invalidInput) := by
  simp [load_from_pickle, extractArray]

theorem streamStep_playing (st : WaveformLoader) (file_id : String)
    (w : List ℚ) (samplingRate : ℚ) (p : ℤ)
    (hw : assocFind st.waveforms file_id = some w)
    (hp : p < (w.length : ℤ)) :
    streamStep st file_id (w.length : ℤ) samplingRate ⟨true, p⟩ =
      (⟨true, p + 256⟩,
       some ⟨pySlice w p (min (p + 256) (w.length : ℤ)), p,
         (p : ℚ) / samplingRate⟩) := by
  simp [streamStep, get_chunk, hw, hp]

theorem runQuiet_playing (st : WaveformLoader) (file_id : String)
    (w : List ℚ) (samplingRate : ℚ)
    (hw : assocFind st.waveforms file_id = some w) :
    ∀ (N : ℕ) (p : ℤ), 0 ≤ p → p + 256 * N ≤ (w.length : ℤ) →
      (runQuiet st file_id (w.length : ℤ) samplingRate ⟨true, p⟩ N).1 =
        ⟨true, p + 256 * N⟩ ∧
      (runQuiet st file_id (w.length : ℤ) samplingRate
          ⟨true, p⟩ N).2.length = N ∧
      ∀ k : ℕ, k < N →
        ((runQuiet st file_id (w.length : ℤ) samplingRate
            ⟨true, p⟩ N).2.getD k ⟨[], 0, 0⟩).position = p + 256 * k ∧
        ((runQuiet st file_id (w.length : ℤ) samplingRate
            ⟨true, p⟩ N).2.getD k ⟨[], 0, 0⟩).timestamp =
          ((p + 256 * k : ℤ) : ℚ) / samplingRate := by
  intro N
  induction N with
  | zero =>
    intro p hp hlen
    refine ⟨by simp [runQuiet], by simp [runQuiet], ?_⟩
    intro k hk
    omega
  | succ n ih =>
    intro p hp hlen
    have hpL : p < (w.length : ℤ) := by omega
    have hss := streamStep_playing st file_id w samplingRate p hw hpL
    have hr : runQuiet st file_id (w.length : ℤ) samplingRate
        ⟨true, p⟩ (n + 1) =
        ((runQuiet st file_id (w.length : ℤ) samplingRate
            ⟨true, p + 256⟩ n).1,
         Emission.mk (pySlice w p (min (p + 256) (w.length : ℤ))) p
             ((p : ℚ) / samplingRate) ::
           (runQuiet st file_id (w.length : ℤ) samplingRate
             ⟨true, p + 256⟩ n).2) := by
      simp [runQuiet, hss]
    obtain ⟨ih1, ih2, ih3⟩ := ih (p + 256) (by omega) (by omega)
    refine ⟨?_, ?_, ?_⟩
    · rw [hr, ih1]
      congr 1
      push_cast
      ring
    · rw [hr]
      simp [ih2]
    · intro k hk
      rw [hr]
      cases k with
      | zero =>
        simp
      | succ m =>
        have hm : m < n := by omega
        obtain ⟨hpos, hts⟩ := ih3 m hm
        rw [List.getD_cons_succ]
        constructor
        · rw [hpos]
          push_cast
          ring
        · rw [hts]
          congr 2
          push_cast
          ring

/-- C8: while Playing with `position < length`, each loop iteration emits
the chunk at the current position, tagged with that position and the
timestamp `position / samplingRate`, then advances the cursor by the
fixed chunk size 256.  From Idle at any cursor, `play` (with no position)
keeps the cursor, and `play` at position 0 makes the very same iteration
emit the chunk at position 0; after `N` quiet iterations from
`(Playing, 0)` the cursor is `256 * N` and the `k`-th emitted chunk is at
`256 * k`; and a `seek` applied between iterations makes the next emitted
chunk start at the seek target regardless of the prior cursor. -/
theorem C8_playback_spec (st : WaveformLoader) (file_id : String)
    (w : List ℚ) (samplingRate : ℚ) (q prior seekPos : ℤ) (N k : ℕ)
    (hw : assocFind st.waveforms file_id = some w)
    (hL : 0 < (w.length : ℤ))
    (hN : 256 * (N : ℤ) ≤ (w.length : ℤ))
    (hk : k < N)
    (hseek0 : 0 ≤ seekPos) (hseekL : seekPos < (w.length : ℤ)) :
    applyCommand ⟨false, q⟩ (.obj (some "play") none) = some ⟨true, q⟩ ∧
    loopIteration st file_id (w.length : ℤ) samplingRate ⟨false, q⟩
        (some (.obj (some "play") (some 0))) =
      .next ⟨true, 0 + 256⟩
        (some ⟨pySlice w 0 (min (0 + 256) (w.length : ℤ)), 0,
          ((0 : ℤ) : ℚ) / samplingRate⟩) ∧
    (runQuiet st file_id (w.length : ℤ) samplingRate ⟨true, 0⟩ N).1 =
      ⟨true, 256 * (N : ℤ)⟩ ∧
    (runQuiet st file_id (w.length : ℤ) samplingRate
        ⟨true, 0⟩ N).2.length = N ∧
    ((runQuiet st file_id (w.length : ℤ) samplingRate
        ⟨true, 0⟩ N).2.getD k ⟨[], 0, 0⟩).position = 256 * (k : ℤ) ∧
    ((runQuiet st file_id (w.length : ℤ) samplingRate
        ⟨true, 0⟩ N).2.getD k ⟨[], 0, 0⟩).timestamp =
      ((256 * (k : ℤ) : ℤ) : ℚ) / samplingRate ∧
    loopIteration st file_id (w.length : ℤ) samplingRate ⟨true, prior⟩
        (some (.obj (some "seek") (some seekPos))) =
      .next ⟨true, seekPos + 256⟩
        (some ⟨pySlice w seekPos (min (seekPos + 256) (w.length : ℤ)),
          seekPos, (seekPos : ℚ) / samplingRate⟩) := by
  have hplay0 : applyCommand ⟨false, q⟩ (.obj (some "play") (some 0)) =
      some ⟨true, 0⟩ := by
    simp [applyCommand]
  have hseekcmd : applyCommand ⟨true, prior⟩
      (.obj (some "seek") (some seekPos)) = some ⟨true, seekPos⟩ := by
    simp [applyCommand]
  obtain ⟨hq1, hq2, hq3⟩ := runQuiet_playing st file_id w samplingRate hw
    N 0 (le_refl 0) (by omega)
  obtain ⟨hpos, hts⟩ := hq3 k hk
  refine ⟨by simp [applyCommand], ?_, ?_, hq2, ?_, ?_, ?_⟩
  · simp only [loopIteration, hplay0,
      streamStep_playing st file_id w samplingRate 0 hw hL]
  · rw [hq1]
    norm_num
  · rw [hpos]
    ring
  · rw [hts]
    congr 2
    ring
  · simp only [loopIteration, hseekcmd,
      streamStep_playing st file_id w samplingRate seekPos hw hseekL]

/-- Witness for C8 at a stored recording of 600 zero samples, with
`N = 2` quiet iterations and `k = 1`. -/
theorem C8_playback_spec_witness :
    assocFind (WaveformLoader.mk [("f", List.replicate 600 0)] []).waveforms
        "f" = some (List.replicate 600 (0 : ℚ)) ∧
    (runQuiet (WaveformLoader.mk [("f", List.replicate 600 0)] []) "f"
        ((List.replicate 600 (0 : ℚ)).length : ℤ) 30000
        ⟨true, 0⟩ 2).2.length = 2 ∧
    ((runQuiet (WaveformLoader.mk [("f", List.replicate 600 0)] []) "f"
        ((List.replicate 600 (0 : ℚ)).length : ℤ) 30000
        ⟨true, 0⟩ 2).2.getD 1 ⟨[], 0, 0⟩).position = 256 * ((1 : ℕ) : ℤ) := by
  have h := C8_playback_spec
    (WaveformLoader.mk [("f", List.replicate 600 0)] []) "f"
    (List.replicate 600 (0 : ℚ)) 30000 5 7 300 2 1
    rfl (by rw [List.length_replicate]; norm_num)
    (by rw [List.length_replicate]; norm_num) (by omega) (by decide)
    (by rw [List.length_replicate]; norm_num)
  exact ⟨rfl, h.2.2.2.1, h.2.2.2.2.1⟩

/-- C6 counterexample: a control payload that is not valid JSON (or is
valid JSON but not an object) raises inside the loop and the connection
is closed, refuting the claim that a malformed payload leaves the
session alive. -/
theorem C6_counterexample :
    loopIteration ⟨[("f", [1, 2, 3])], []⟩ "f" 3 30000 ⟨false, 0⟩
        (some .invalid) = .closed ∧
    loopIteration ⟨[("f", [1, 2, 3])], []⟩ "f" 3 30000 ⟨false, 0⟩
        (some .nonObject) = .closed := by
  exact ⟨rfl, rfl⟩

/-- C6 amended: a malformed control payload that is still a JSON object
(its command absent or unrecognised) is ignored — the dispatch leaves
the session state unchanged and the iteration proceeds exactly as if no
message had arrived; but a payload that is not parseable as a JSON
object raises and terminates the session. -/
theorem C6_malformed_amended (st : WaveformLoader) (file_id : String)
    (totalLength : ℤ) (samplingRate : ℚ) (s : Session)
    (cmd : Option String) (pos : Option ℤ)
    (h1 : cmd ≠ some "play") (h2 : cmd ≠ some "pause")
    (h3 : cmd ≠ some "seek") :
    applyCommand s (.obj cmd pos) = some s ∧
    loopIteration st file_id totalLength samplingRate s
        (some (.obj cmd pos)) =
      loopIteration st file_id totalLength samplingRate s none ∧
    (∀ s' : Session, loopIteration st file_id totalLength samplingRate s'
        (some .invalid) = .closed) := by
  have hac : applyCommand s (.obj cmd pos) = some s := by
    simp [applyCommand, h1, h2, h3]
  refine ⟨hac, ?_, fun s' => rfl⟩
  simp only [loopIteration, hac]

/-- Witness for the amended C6 at the unrecognised command "reset". -/
theorem C6_malformed_amended_witness :
    (some "reset" : Option String) ≠ some "play" ∧
    applyCommand ⟨true, 42⟩ (.obj (some "reset") (some 9)) =
        some ⟨true, 42⟩ := by
  refine ⟨by decide, ?_⟩
  exact (C6_malformed_amended ⟨[], []⟩ "f" 0 1 ⟨true, 42⟩
    (some "reset") (some 9) (by decide) (by decide) (by decide)).1

/-- C10: a `seek` command whose payload lacks the `position` field resets
the cursor to 0 (`data.get("position", 0)`), for every session state. -/
theorem C10_seek_missing_position (s : Session) :
    applyCommand s (.obj (some "seek") none) = some ⟨s.playing, 0⟩ := by
  simp [applyCommand]

theorem stripBytesEq_cons_ne (c : Char) (l : List Char) (hc : c ≠ 'b') :
    stripBytesEq (c :: l) = c :: stripBytesEq l := by
  rw [stripBytesEq.eq_def]
  split
  · next rest heq =>
    injection heq with h1 _
    exact absurd h1 hc
  · next _ c2 rest2 _ heq =>
    injection heq with h1 h2
    subst h1
    subst h2
    rfl
  · next _ heq =>
    simp at heq

theorem stripBytesEq_of_not_mem (l : List Char) (h : 'b' ∉ l) :
    stripBytesEq l = l := by
  induction l with
  | nil => rfl
  | cons c rest ih =>
    have hc : c ≠ 'b' := fun hh => h (hh ▸ List.mem_cons_self _ _)
    have hr : 'b' ∉ rest := fun hh => h (List.mem_cons_of_mem _ hh)
    rw [stripBytesEq_cons_ne c rest hc, ih hr]

theorem splitDash_of_not_mem (l : List Char) (h : '-' ∉ l) :
    splitDash l = [l] := by
  induction l with
  | nil => rfl
  | cons c rest ih =>
    have hc : c ≠ '-' := fun hh => h (hh ▸ List.mem_cons_self _ _)
    have hr : '-' ∉ rest := fun hh => h (List.mem_cons_of_mem _ hh)
    rw [splitDash, if_neg hc, ih hr]

theorem splitDash_append (s e : List Char) (hs : '-' ∉ s) (he : '-' ∉ e) :
    splitDash (s ++ '-' :: e) = [s, e] := by
  induction s with
  | nil =>
    rw [List.nil_append, splitDash, if_pos rfl, splitDash_of_not_mem e he]
  | cons c rest ih =>
    have hc : c ≠ '-' := fun hh => hs (hh ▸ List.mem_cons_self _ _)
    have hr : '-' ∉ rest := fun hh => hs (List.mem_cons_of_mem _ hh)
    rw [List.cons_append, splitDash, if_neg hc, ih hr]

theorem digitsAcc_isDigit :
    ∀ (l : List Char) (acc n : ℕ), digitsAcc acc l = some n →
      ∀ c ∈ l, c.isDigit := by
  intro l
  induction l with
  | nil => intro acc n h c hc; simp at hc
  | cons c0 rest ih =>
    intro acc n h c hc
    rw [digitsAcc] at h
    split at h
    · rcases List.mem_cons.1 hc with rfl | hc
      · next hd => exact hd
      · exact ih _ n h c hc
    · exact absurd h (by simp)

theorem digitsToNat_isDigit {l : List Char} {n : ℕ}
    (h : digitsToNat l = some n) : ∀ c ∈ l, c.isDigit := by
  cases l with
  | nil => intro c hc; simp at hc
  | cons c0 rest =>
    rw [digitsToNat] at h
    · exact digitsAcc_isDigit _ _ _ h
    · simp

theorem dropWhile_space_of_digits (l : List Char)
    (h : ∀ c ∈ l, c.isDigit) : l.dropWhile (fun c => c = ' ') = l := by
  cases l with
  | nil => rfl
  | cons c rest =>
    rw [List.dropWhile_cons, if_neg]
    simp only [decide_eq_true_eq]
    intro hc
    have hdig := h c (List.mem_cons_self _ _)
    rw [hc] at hdig
    exact absurd hdig (by decide)

theorem trim_of_digits (l : List Char) (h : ∀ c ∈ l, c.isDigit) :
    ((l.dropWhile (fun c => c = ' ')).reverse.dropWhile
      (fun c => c = ' ')).reverse = l := by
  rw [dropWhile_space_of_digits l h,
    dropWhile_space_of_digits l.reverse
      (fun c hc => h c (List.mem_reverse.1 hc)),
    List.reverse_reverse]

theorem parsePyInt_of_digits (l : List Char) (n : ℕ)
    (hd : digitsToNat l = some n) : parsePyInt l = some (n : ℤ) := by
  have hdig := digitsToNat_isDigit hd
  cases l with
  | nil => simp [digitsToNat] at hd
  | cons c rest =>
    have hc := hdig c (List.mem_cons_self _ _)
    have hplus : c ≠ '+' := by
      intro hh
      rw [hh] at hc
      exact absurd hc (by decide)
    have hminus : c ≠ '-' := by
      intro hh
      rw [hh] at hc
      exact absurd hc (by decide)
    simp only [parsePyInt]
    rw [trim_of_digits _ hdig]
    simp [hplus, hminus, hd]

theorem isDigit_ne_markers (c : Char) (h : c.isDigit) :
    c ≠ 'b' ∧ c ≠ '-' := by
  constructor <;> intro hh <;> rw [hh] at h <;> exact absurd h (by decide)

theorem enc_flatten_length (enc : ℚ → List ℕ)
    (henc : ∀ x, (enc x).length = 4) (w : List ℚ) :
    (w.map enc).flatten.length = 4 * w.length := by
  induction w with
  | nil => simp
  | cons x xs ih =>
    simp only [List.map_cons, List.flatten_cons, List.length_append, ih,
      henc, List.length_cons]
    ring

theorem parseRange_mk (tb : ℕ) (sC eC : List Char) (sN eN : ℤ)
    (hs : (sC = [] ∧ sN = 0) ∨
      (∃ m : ℕ, digitsToNat sC = some m ∧ sN = (m : ℤ)))
    (he : (eC = [] ∧ eN = (tb : ℤ) - 1) ∨
      (∃ m : ℕ, digitsToNat eC = some m ∧ eN = (m : ℤ))) :
    parseRange tb
        ('b' :: 'y' :: 't' :: 'e' :: 's' :: '=' :: (sC ++ '-' :: eC)) =
      some (sN, eN) := by
  have hdigS : ∀ c ∈ sC, c.isDigit := by
    rcases hs with ⟨rfl, _⟩ | ⟨m, hm, _⟩
    · simp
    · exact digitsToNat_isDigit hm
  have hdigE : ∀ c ∈ eC, c.isDigit := by
    rcases he with ⟨rfl, _⟩ | ⟨m, hm, _⟩
    · simp
    · exact digitsToNat_isDigit hm
  have hdS : '-' ∉ sC := fun hm => (isDigit_ne_markers _ (hdigS _ hm)).2 rfl
  have hdE : '-' ∉ eC := fun hm => (isDigit_ne_markers _ (hdigE _ hm)).2 rfl
  have hnoB : 'b' ∉ sC ++ '-' :: eC := by
    intro hm
    rcases List.mem_append.1 hm with hm | hm
    · exact (isDigit_ne_markers _ (hdigS _ hm)).1 rfl
    · rcases List.mem_cons.1 hm with hm | hm
      · exact absurd hm.symm (by decide)
      · exact (isDigit_ne_markers _ (hdigE _ hm)).1 rfl
  have hstrip : stripBytesEq
      ('b' :: 'y' :: 't' :: 'e' :: 's' :: '=' :: (sC ++ '-' :: eC)) =
      sC ++ '-' :: eC := by
    have h1 : stripBytesEq
        ('b' :: 'y' :: 't' :: 'e' :: 's' :: '=' :: (sC ++ '-' :: eC)) =
        stripBytesEq (sC ++ '-' :: eC) := rfl
    rw [h1, stripBytesEq_of_not_mem _ hnoB]
  have hpS : parsePiece 0 sC = some sN := by
    rcases hs with ⟨rfl, rfl⟩ | ⟨m, hm, rfl⟩
    · rfl
    · have hne : sC ≠ [] := by
        intro hh
        rw [hh] at hm
        simp [digitsToNat] at hm
      rw [parsePiece, if_neg hne]
      exact parsePyInt_of_digits sC m hm
  have hpE : parsePiece ((tb : ℤ) - 1) eC = some eN := by
    rcases he with ⟨rfl, rfl⟩ | ⟨m, hm, rfl⟩
    · rfl
    · have hne : eC ≠ [] := by
        intro hh
        rw [hh] at hm
        simp [digitsToNat] at hm
      rw [parsePiece, if_neg hne]
      exact parsePyInt_of_digits eC m hm
  rw [parseRange, hstrip, splitDash_append sC eC hdS hdE]
  show (match parsePiece 0 sC, parsePiece ((tb : ℤ) - 1) eC with
    | some a, some b => some (a, b)
    | _, _ => none) = some (sN, eN)
  rw [hpS, hpE]

/-- C4: for a stored recording (with totalBytes = 4 * sample count for
any 4-byte-per-sample encoding) and a parseable Range header
`bytes=<start>-<end>` (either bound optional, start defaulting to 0 and
end to totalBytes - 1) with 0 <= start < totalBytes, the response is
Partial Content carrying exactly the encoded bytes
[start, min(end, totalBytes - 1)] inclusive, with content-range header
exactly "bytes <start>-<clampedEnd>/<totalBytes>". -/
theorem C4_range_spec (enc : ℚ → List ℕ) (st : WaveformLoader)
    (file_id : String) (w : List ℚ) (md : Metad) (sC eC : List Char)
    (sN eN : ℤ)
    (henc : ∀ x : ℚ, (enc x).length = 4)
    (hw : assocFind st.waveforms file_id = some w)
    (hmd : assocFind st.metadata file_id = some md)
    (hs : (sC = [] ∧ sN = 0) ∨
      (∃ m : ℕ, digitsToNat sC = some m ∧ sN = (m : ℤ)))
    (he : (eC = [] ∧ eN = 4 * (w.length : ℤ) - 1) ∨
      (∃ m : ℕ, digitsToNat eC = some m ∧ eN = (m : ℤ)))
    (hs0 : 0 ≤ sN) (hsTb : sN < 4 * (w.length : ℤ)) :
    ((w.map enc).flatten.length : ℤ) = 4 * (w.length : ℤ) ∧
    get_binary_data enc st file_id
        (some ('b' :: 'y' :: 't' :: 'e' :: 's' :: '=' :: (sC ++ '-' :: eC))) =
      .okRange
        (((w.map enc).flatten.drop sN.toNat).take
          ((min eN (4 * (w.length : ℤ) - 1) + 1 - sN).toNat))
        ("bytes " ++ toString sN ++ "-" ++
          toString (min eN (4 * (w.length : ℤ) - 1)) ++ "/" ++
          toString ((w.map enc).flatten.length))
        md.sampling_rate md.length ∧
    (((w.map enc).flatten.drop sN.toNat).take
        ((min eN (4 * (w.length : ℤ) - 1) + 1 - sN).toNat)).length =
      (min eN (4 * (w.length : ℤ) - 1) + 1 - sN).toNat := by
  have hTB := enc_flatten_length enc henc w
  have hTBz : (((w.map enc).flatten.length : ℕ) : ℤ) = 4 * (w.length : ℤ) := by
    rw [hTB]
    push_cast
    ring
  have he' : (eC = [] ∧ eN = (((w.map enc).flatten.length : ℕ) : ℤ) - 1) ∨
      (∃ m : ℕ, digitsToNat eC = some m ∧ eN = (m : ℤ)) := by
    rcases he with ⟨h1, h2⟩ | h
    · exact Or.inl ⟨h1, by rw [hTBz]; exact h2⟩
    · exact Or.inr h
  have hparse := parseRange_mk (w.map enc).flatten.length sC eC sN eN hs he'
  have heN0 : 0 ≤ eN := by
    rcases he with ⟨_, h2⟩ | ⟨m, _, h2⟩ <;> omega
  have hvalid : ¬ (sN < 0 ∨ (((w.map enc).flatten.length : ℕ) : ℤ) ≤ sN) := by
    omega
  refine ⟨hTBz, ?_, ?_⟩
  · simp only [get_binary_data, hw, hmd, hparse,
      List.cons_ne_nil, if_neg, hvalid, if_false, reduceCtorEq,
      ite_false]
    rw [hTBz, pySlice_of_nonneg _ sN _ hs0 (by omega)]
    congr 2
    omega
  · rw [List.length_take, List.length_drop]
    omega

/-- C5: for a stored recording and any nonempty Range header, the route
answers RangeNotSatisfiable (416) exactly when the header parses and the
parsed start is < 0 or >= totalBytes, and MalformedRange (400) exactly
when the header cannot be parsed as two integers around the separator;
the two failure kinds carry distinct status codes. -/
theorem C5_range_error_kinds (enc : ℚ → List ℕ) (st : WaveformLoader)
    (file_id : String) (w : List ℚ) (md : Metad) (hdr : List Char)
    (hw : assocFind st.waveforms file_id = some w)
    (hmd : assocFind st.metadata file_id = some md)
    (hne : hdr ≠ []) :
    (get_binary_data enc st file_id (some hdr) = .notSatisfiable ↔
      (∃ s e : ℤ, parseRange (w.map enc).flatten.length hdr = some (s, e) ∧
        (s < 0 ∨ ((w.map enc).flatten.length : ℤ) ≤ s))) ∧
    (get_binary_data enc st file_id (some hdr) = .badRange ↔
      parseRange (w.map enc).flatten.length hdr = none) ∧
    statusCode .badRange = 400 ∧
    statusCode .notSatisfiable = 416 ∧
    statusCode .badRange ≠ statusCode .notSatisfiable := by
  cases hp : parseRange (w.map enc).flatten.length hdr with
  | none =>
    have hred : get_binary_data enc st file_id (some hdr) = .badRange := by
      simp only [get_binary_data, hw, hmd, if_neg hne, hp]
    rw [hred]
    refine ⟨?_, by simp, rfl, rfl, by decide⟩
    constructor
    · intro h
      cases h
    · rintro ⟨s, e, hpe, _⟩
      cases hpe
  | some pr =>
    obtain ⟨s, e⟩ := pr
    by_cases hc : s < 0 ∨ (((w.map enc).flatten.length : ℕ) : ℤ) ≤ s
    · have hred : get_binary_data enc st file_id (some hdr) =
          .notSatisfiable := by
        simp only [get_binary_data, hw, hmd, if_neg hne, hp, if_pos hc]
      rw [hred]
      refine ⟨⟨fun _ => ⟨s, e, rfl, hc⟩, fun _ => rfl⟩, ?_, rfl, rfl,
        by decide⟩
      constructor
      · intro h
        cases h
      · intro h
        cases h
    · have hok : get_binary_data enc st file_id (some hdr) ≠
          .notSatisfiable ∧
          get_binary_data enc st file_id (some hdr) ≠ .badRange := by
        simp only [get_binary_data, hw, hmd, if_neg hne, hp, if_neg hc]
        exact ⟨by simp, by simp⟩
      refine ⟨?_, ?_, rfl, rfl, by decide⟩
      · constructor
        · intro h
          exact absurd h hok.1
        · rintro ⟨s', e', hpe, hcond⟩
          injection hpe with hpe1
          injection hpe1 with h1 h2
          subst h1
          exact absurd hcond hc
      · constructor
        · intro h
          exact absurd h hok.2
        · intro h
          cases h

/-- Witness for C4 at the header `bytes=4-11` over a 3-sample recording
(12 encoded bytes): 8 payload bytes and content-range `bytes 4-11/12`. -/
theorem C4_range_spec_witness :
    assocFind (WaveformLoader.mk [("f", [1, 2, 3])]
        [("f", ⟨3, 30000, 1, 3⟩)]).waveforms "f" = some [1, 2, 3] ∧
    get_binary_data (fun _ => [0, 0, 0, 0])
        (WaveformLoader.mk [("f", [1, 2, 3])] [("f", ⟨3, 30000, 1, 3⟩)]) "f"
        (some ('b' :: 'y' :: 't' :: 'e' :: 's' :: '=' ::
          (['4'] ++ '-' :: ['1', '1']))) =
      .okRange [0, 0, 0, 0, 0, 0, 0, 0] "bytes 4-11/12" 30000 3 := by
  have h := C4_range_spec (fun _ => [0, 0, 0, 0])
    (WaveformLoader.mk [("f", [1, 2, 3])] [("f", ⟨3, 30000, 1, 3⟩)]) "f"
    [1, 2, 3] ⟨3, 30000, 1, 3⟩ ['4'] ['1', '1'] 4 11
    (fun _ => rfl) rfl rfl
    (Or.inr ⟨4, rfl, rfl⟩) (Or.inr ⟨11, rfl, rfl⟩) (by decide) (by decide)
  refine ⟨rfl, ?_⟩
  rw [h.2.1]
  decide

/-- Witness for C5: the unparseable header `junk` yields MalformedRange
and the header `bytes=99-` (start beyond the 12 data bytes) yields
RangeNotSatisfiable. -/
theorem C5_range_error_kinds_witness :
    ("junk".toList ≠ ([] : List Char)) ∧
    get_binary_data (fun _ => [0, 0, 0, 0])
        (WaveformLoader.mk [("f", [1, 2, 3])] [("f", ⟨3, 30000, 1, 3⟩)]) "f"
        (some "junk".toList) = .badRange ∧
    get_binary_data (fun _ => [0, 0, 0, 0])
        (WaveformLoader.mk [("f", [1, 2, 3])] [("f", ⟨3, 30000, 1, 3⟩)]) "f"
        (some "bytes=99-".toList) = .notSatisfiable := by
  have h1 := C5_range_error_kinds (fun _ => [0, 0, 0, 0])
    (WaveformLoader.mk [("f", [1, 2, 3])] [("f", ⟨3, 30000, 1, 3⟩)]) "f"
    [1, 2, 3] ⟨3, 30000, 1, 3⟩ "junk".toList rfl rfl (by decide)
  have h2 := C5_range_error_kinds (fun _ => [0, 0, 0, 0])
    (WaveformLoader.mk [("f", [1, 2, 3])] [("f", ⟨3, 30000, 1, 3⟩)]) "f"
    [1, 2, 3] ⟨3, 30000, 1, 3⟩ "bytes=99-".toList rfl rfl (by decide)
  refine ⟨by decide, ?_, ?_⟩
  · exact h1.2.1.mpr (by decide)
  · exact h2.1.mpr ⟨99, 11, by decide, by decide⟩

end NeuroViewer
